import Mathlib

/-!
Verification of the view-driven chunk streaming scheduler of
src/crates/valence_anvil/examples/anvil_loading.rs.

The scheduler state is the resource GameState (lines 25-32): a HashMap
from ChunkPos to Option Priority (the Pending Request Table; a Some value
is a Queued priority, a None value marks an InFlight request), plus the
two channel endpoints.  The per-tick systems are registered in main
(lines 41-51) in the order init_clients, remove_unviewed_chunks,
update_client_views, send_recv_chunks.  The worker thread runs
anvil_worker (lines 181-196) with get_chunk (lines 198-208).

The HashMap is embedded as an association list whose key list is kept
without duplicates; channels are embedded as lists of messages currently
in transit; the worker's blocking read and decode results are supplied
as oracle inputs to each worker step.
-/

namespace AnvilLoading

/-- Chunk position: the integer pair (x, z) of valence's ChunkPos. -/
abbrev ChunkPos := Int × Int

/-- The order in which chunks should be processed by the anvil worker.
Smaller values are sent first (line 36: type Priority = u64). -/
abbrev Priority := Nat

/-- Loaded chunk data.  The scheduler never inspects the payload, so only
the section count passed to Chunk::new (line 203) is retained. -/
structure Chunk where
  sectionCount : Nat
deriving DecidableEq, Repr

/-- Constant SECTION_COUNT = 24 (line 16). -/
def SECTION_COUNT : Nat := 24

/-- Chunk::new(section_count) (line 203). -/
def Chunk.new (n : Nat) : Chunk := ⟨n⟩

/-- The Pending Request Table: HashMap<ChunkPos, Option<Priority>>
(line 29), as an association list.  A Some priority is a Queued entry;
a None value is an InFlight entry (dispatched, priority dropped). -/
abbrev Pending := List (ChunkPos × Option Priority)

/-- Lookup in the Pending Request Table (first matching key). -/
def pfind : Pending → ChunkPos → Option (Option Priority)
  | [], _ => none
  | (k, v) :: rest, c => if k = c then some v else pfind rest c

/-- HashMap::remove on the Pending Request Table (line 160): drops the
entry with the given key. -/
def pending_remove : Pending → ChunkPos → Pending
  | [], _ => []
  | (k, v) :: rest, c => if k = c then rest else (k, v) :: pending_remove rest c

/-- Modelled from the spec: squared Euclidean distance between two chunk
positions, ChunkPos::distance_squared from the valence library (not under
src/); the spec calls the priority a squared Euclidean distance from the
requesting viewer to the chunk. -/
def distance_squared (a b : ChunkPos) : Priority :=
  ((a.1 - b.1) * (a.1 - b.1) + (a.2 - b.2) * (a.2 - b.2)).toNat

/-- The entry match of the queue_pos closure (lines 126-137): a vacant
entry is inserted as Queued(dist); an occupied Queued(existing) entry is
lowered to Queued(min existing dist); an occupied InFlight entry is left
untouched.  This is the mark_wanted operation of the spec. -/
def mark_wanted : Pending → ChunkPos → Priority → Pending
  | [], c, d => [(c, some d)]
  | (k, v) :: rest, c, d =>
    if k = c then
      match v with
      | some pri => (k, some (min pri d)) :: rest
      | none => (k, none) :: rest
    else (k, v) :: mark_wanted rest c d

/-- The World Chunk Store: the instance's loaded chunks, as a list of
(position, chunk) entries with distinct positions. -/
abbrev Store := List (ChunkPos × Chunk)

/-- Membership test instance.chunk(pos).is_some() on the store. -/
def store_contains (s : Store) (c : ChunkPos) : Bool :=
  s.any (fun e => decide (e.1 = c))

/-- Instance::insert_chunk(pos, chunk) (line 159): inserts the chunk,
replacing any chunk already present at that position. -/
def insert_chunk (s : Store) (c : ChunkPos) (ch : Chunk) : Store :=
  if store_contains s c then
    s.map (fun e => if e.1 = c then (c, ch) else e)
  else
    (c, ch) :: s

/-- Modelled from the spec: one viewer's per-tick snapshot.  pos is the
chunk position of the client (ChunkView.pos of client.view(), line 123),
view is its current view set, and entered is the list of positions the
queue_pos closure is applied to: the full view for a client added this
tick (line 143), otherwise view.diff(old_view) (line 147).  The view and
diff computations live in the valence library, not under src/, so the
entered list is taken as input. -/
structure Viewer where
  pos : ChunkPos
  view : List ChunkPos
  entered : List ChunkPos
deriving DecidableEq, Repr

/-- The queue_pos closure (lines 124-139): a position already present in
the instance is skipped; otherwise the Pending Request Table entry is
updated via mark_wanted with priority distance_squared(view.pos, pos). -/
def queue_pos (store : Store) (viewPos : ChunkPos) (p : Pending) (c : ChunkPos) : Pending :=
  if store_contains store c then p
  else mark_wanted p c (distance_squared viewPos c)

/-- System update_client_views (lines 115-151): every client applies
queue_pos to each entered position. -/
def update_client_views (viewers : List Viewer) (store : Store) (p : Pending) : Pending :=
  viewers.foldl (fun q v => v.entered.foldl (queue_pos store v.pos) q) p

/-- Modelled from the spec: Chunk::is_viewed_mut of the valence library
(not under src/); per the spec's eviction step, a chunk is viewed exactly
when its coordinate is referenced by some viewer's current view. -/
def is_viewed (viewers : List Viewer) (c : ChunkPos) : Bool :=
  viewers.any (fun v => v.view.contains c)

/-- System remove_unviewed_chunks (lines 109-113): retain_chunks keeps
only the chunks that are viewed. -/
def remove_unviewed_chunks (viewers : List Viewer) (s : Store) : Store :=
  s.filter (fun e => is_viewed viewers e.1)

/-- Result of the integration loop (lines 157-161). -/
structure IntOut where
  store : Store
  pending : Pending
  ok : Bool
deriving DecidableEq, Repr

/-- The integration loop of send_recv_chunks (lines 157-161): each
(pos, chunk) drained from the receiver is inserted into the instance and
removed from the Pending Request Table; ok records whether every
assert!(state.pending.remove(&pos).is_some()) succeeded. -/
def integrate : List (ChunkPos × Chunk) → Store → Pending → IntOut
  | [], s, p => ⟨s, p, true⟩
  | (c, ch) :: rest, s, p =>
    let hit := (pfind p c).isSome
    let r := integrate rest (insert_chunk s c ch) (pending_remove p c)
    ⟨r.store, r.pending, hit && r.ok⟩

/-- The collection loop of send_recv_chunks (lines 163-170): every
Queued(pri) entry is taken (its priority moved into the to_send list,
its table value becoming None, i.e. InFlight); InFlight entries are left
untouched and excluded. -/
def take_dispatchable (p : Pending) : List (Priority × ChunkPos) × Pending :=
  (p.filterMap (fun e => e.2.map (fun pri => (pri, e.1))),
   p.map (fun e => (e.1, (none : Option Priority))))

/-- Insertion of one (priority, pos) pair into a list sorted by ascending
priority. -/
def insert_by_pri (x : Priority × ChunkPos) :
    List (Priority × ChunkPos) → List (Priority × ChunkPos)
  | [] => [x]
  | y :: ys => if x.1 ≤ y.1 then x :: y :: ys else y :: insert_by_pri x ys

/-- Line 173: to_send.sort_unstable_by_key(|(pri, _)| *pri), embedded as
insertion sort by ascending priority (the claimed property only concerns
the priority order; ties may be broken arbitrarily). -/
def sort_by_pri : List (Priority × ChunkPos) → List (Priority × ChunkPos)
  | [] => []
  | x :: xs => insert_by_pri x (sort_by_pri xs)

/-- The whole scheduler-side state: the GameState resource (pending plus
the two channel contents) and the instance's chunks. -/
structure SysState where
  pending : Pending
  store : Store
  toWorker : List ChunkPos
  toMain : List (ChunkPos × Chunk)
deriving DecidableEq, Repr

/-- Result of running send_recv_chunks: the new state, the list of
positions sent to the worker this tick in send order, and whether every
integration assert succeeded. -/
structure TickOut where
  state : SysState
  sent : List ChunkPos
  ok : Bool
deriving DecidableEq, Repr

/-- System send_recv_chunks (lines 153-179): drain the receiver and
integrate every finished chunk, then take all Queued entries, sort them
by ascending priority, and send the positions in that order. -/
def send_recv_chunks (s : SysState) : TickOut :=
  let r := integrate s.toMain s.store s.pending
  let td := take_dispatchable r.pending
  let sorted := (sort_by_pri td.1).map (fun e => e.2)
  ⟨⟨td.2, r.store, s.toWorker ++ sorted, []⟩, sorted, r.ok⟩

/-- One simulation tick on the main thread, in the system order fixed by
main (lines 47-49): remove_unviewed_chunks, then update_client_views,
then send_recv_chunks. -/
def tick (viewers : List Viewer) (s : SysState) : TickOut :=
  let store1 := remove_unviewed_chunks viewers s.store
  let pending1 := update_client_views viewers store1 s.pending
  send_recv_chunks ⟨pending1, store1, s.toWorker, s.toMain⟩

/-- Function get_chunk (lines 198-208): a read error propagates, a
missing chunk yields Ok(None), otherwise a fresh Chunk::new(SECTION_COUNT)
is filled by to_valence, whose error also propagates.  The storage read
and the decoder live outside src/ and enter as oracle arguments. -/
def get_chunk {Data : Type} (read_chunk : Except String (Option Data))
    (to_valence : Data → Chunk → Except String Chunk) :
    Except String (Option Chunk) :=
  match read_chunk with
  | .error e => .error e
  | .ok none => .ok none
  | .ok (some d) =>
    match to_valence d (Chunk.new SECTION_COUNT) with
    | .error e => .error e
    | .ok ch => .ok (some ch)

/-- The body of the anvil_worker loop (lines 186-194) for one received
position, given the result of get_chunk: on Ok(Some chunk) the pair is
sent to the main thread, on Ok(None) nothing happens at all, on Err a
warning is logged and nothing is sent. -/
def anvil_worker_step (pos : ChunkPos) (res : Except String (Option Chunk)) :
    Option (ChunkPos × Chunk) × List String :=
  match res with
  | .ok (some ch) => (some (pos, ch), [])
  | .ok none => (none, [])
  | .error _ => (none, ["Failed to get chunk"])

/-- One step of the whole two-thread system: either the main thread runs
a full tick with the given viewer snapshots, or the worker thread
processes the next position from the main-to-worker channel with the
given get_chunk outcome (blocking, hence a no-op, when the channel is
empty). -/
inductive Step where
  | tick (viewers : List Viewer)
  | worker (res : Except String (Option Chunk))
deriving Repr

/-- The transition function of the system. -/
def stepFn (s : SysState) : Step → SysState
  | .tick vs => (tick vs s).state
  | .worker res =>
    match s.toWorker with
    | [] => s
    | c :: rest =>
      match (anvil_worker_step c res).1 with
      | some r => ⟨s.pending, s.store, rest, s.toMain ++ [r]⟩
      | none => ⟨s.pending, s.store, rest, s.toMain⟩

/-- The initial state: empty table, empty instance, empty channels
(setup, lines 68-79). -/
def init : SysState := ⟨[], [], [], []⟩

/-- Run the system from the initial state through a list of steps. -/
def run (steps : List Step) : SysState := steps.foldl stepFn init

/-- Run the system from an arbitrary state through a list of steps. -/
def runFrom (s : SysState) (steps : List Step) : SysState := steps.foldl stepFn s

/-- Keys of a pending table. -/
abbrev pkeys (p : Pending) : List ChunkPos := p.map (fun e => e.1)

/-! Basic lemmas about pfind and mark_wanted. -/

theorem foldl_preserve {α β : Type} (P : α → Prop) (f : α → β → α)
    (hf : ∀ a x, P a → P (f a x)) :
    ∀ (l : List β) (a : α), P a → P (l.foldl f a) := by
  intro l
  induction l with
  | nil => intro a ha; exact ha
  | cons x xs ih => intro a ha; exact ih (f a x) (hf a x ha)

theorem pfind_eq_none_iff {p : Pending} {c : ChunkPos} :
    pfind p c = none ↔ c ∉ pkeys p := by
  induction p with
  | nil => simp [pfind, pkeys]
  | cons e rest ih =>
    obtain ⟨k, v⟩ := e
    by_cases hk : k = c
    · subst hk
      simp [pfind, pkeys]
    · simp [pfind, hk, pkeys, ih]
      intro h
      exact fun hc => hk hc.symm

theorem pfind_isSome_of_mem {p : Pending} {c : ChunkPos} {v : Option Priority}
    (h : (c, v) ∈ p) : (pfind p c).isSome := by
  induction p with
  | nil => simp at h
  | cons e rest ih =>
    obtain ⟨k, w⟩ := e
    rcases List.mem_cons.mp h with h1 | h2
    · injection h1 with hk hv
      subst hk
      simp [pfind]
    · by_cases hk : k = c
      · simp [pfind, hk]
      · simpa [pfind, hk] using ih h2

theorem pfind_of_mem_nodup {p : Pending} {c : ChunkPos} {v : Option Priority}
    (hnd : (pkeys p).Nodup) (h : (c, v) ∈ p) : pfind p c = some v := by
  induction p with
  | nil => simp at h
  | cons e rest ih =>
    obtain ⟨k, w⟩ := e
    simp only [pkeys, List.map_cons, List.nodup_cons] at hnd
    rcases List.mem_cons.mp h with h1 | h2
    · injection h1 with hk hv
      subst hk
      subst hv
      simp [pfind]
    · by_cases hk : k = c
      · exfalso
        subst hk
        exact hnd.1 (List.mem_map.mpr ⟨(k, v), h2, rfl⟩)
      · simpa [pfind, hk] using ih hnd.2 h2

theorem pfind_mark_wanted_ne {p : Pending} {c x : ChunkPos} {d : Priority}
    (h : x ≠ c) : pfind (mark_wanted p c d) x = pfind p x := by
  have hcx : c ≠ x := Ne.symm h
  induction p with
  | nil => simp [mark_wanted, pfind, hcx]
  | cons e rest ih =>
    obtain ⟨k, v⟩ := e
    by_cases hk : k = c
    · subst hk
      have hkx : k ≠ x := hcx
      cases v with
      | some pri => simp [mark_wanted, pfind, hkx]
      | none => simp [mark_wanted, pfind]
    · cases v with
      | some pri => simp [mark_wanted, hk, pfind, ih]
      | none => simp [mark_wanted, hk, pfind, ih]

theorem pfind_mark_wanted_vacant {p : Pending} {c : ChunkPos} {d : Priority}
    (h : pfind p c = none) : pfind (mark_wanted p c d) c = some (some d) := by
  induction p with
  | nil => simp [mark_wanted, pfind]
  | cons e rest ih =>
    obtain ⟨k, v⟩ := e
    by_cases hk : k = c
    · subst hk
      simp [pfind] at h
    · simp only [pfind, if_neg hk] at h
      cases v with
      | some pri => simp [mark_wanted, hk, pfind, ih h]
      | none => simp [mark_wanted, hk, pfind, ih h]

theorem pfind_mark_wanted_queued {p : Pending} {c : ChunkPos} {a d : Priority}
    (h : pfind p c = some (some a)) :
    pfind (mark_wanted p c d) c = some (some (min a d)) := by
  induction p with
  | nil => simp [pfind] at h
  | cons e rest ih =>
    obtain ⟨k, v⟩ := e
    by_cases hk : k = c
    · subst hk
      simp [pfind] at h
      subst h
      simp [mark_wanted, pfind]
    · simp only [pfind, if_neg hk] at h
      cases v with
      | some pri => simp [mark_wanted, hk, pfind, ih h]
      | none => simp [mark_wanted, hk, pfind, ih h]

theorem mark_wanted_inflight {p : Pending} {c : ChunkPos} {d : Priority}
    (h : pfind p c = some none) : mark_wanted p c d = p := by
  induction p with
  | nil => simp [pfind] at h
  | cons e rest ih =>
    obtain ⟨k, v⟩ := e
    by_cases hk : k = c
    · subst hk
      simp [pfind] at h
      subst h
      simp [mark_wanted]
    · simp only [pfind, if_neg hk] at h
      cases v with
      | some pri => simp [mark_wanted, hk, ih h]
      | none => simp [mark_wanted, hk, ih h]

theorem pkeys_cons (k : ChunkPos) (v : Option Priority) (rest : Pending) :
    pkeys ((k, v) :: rest) = k :: pkeys rest := rfl

theorem mark_wanted_cons_self_queued (k : ChunkPos) (pri : Priority) (rest : Pending)
    (d : Priority) :
    mark_wanted ((k, some pri) :: rest) k d = (k, some (min pri d)) :: rest := by
  simp [mark_wanted]

theorem mark_wanted_cons_self_inflight (k : ChunkPos) (rest : Pending) (d : Priority) :
    mark_wanted ((k, none) :: rest) k d = (k, none) :: rest := by
  simp [mark_wanted]

theorem mark_wanted_cons_ne {k c : ChunkPos} (hk : k ≠ c) (v : Option Priority)
    (rest : Pending) (d : Priority) :
    mark_wanted ((k, v) :: rest) c d = (k, v) :: mark_wanted rest c d := by
  cases v with
  | some pri => simp [mark_wanted, hk]
  | none => simp [mark_wanted, hk]

theorem mem_pkeys_mark_wanted {p : Pending} {c x : ChunkPos} {d : Priority}
    (h : x ∈ pkeys (mark_wanted p c d)) : x ∈ pkeys p ∨ x = c := by
  induction p with
  | nil =>
    simp [mark_wanted, pkeys] at h
    exact Or.inr h
  | cons e rest ih =>
    obtain ⟨k, v⟩ := e
    by_cases hk : k = c
    · subst hk
      cases v with
      | some pri =>
        rw [mark_wanted_cons_self_queued, pkeys_cons] at h
        rw [pkeys_cons]
        exact Or.inl h
      | none =>
        rw [mark_wanted_cons_self_inflight] at h
        exact Or.inl h
    · rw [mark_wanted_cons_ne hk, pkeys_cons] at h
      rw [pkeys_cons]
      rcases List.mem_cons.mp h with h1 | h2
      · exact Or.inl (List.mem_cons.mpr (Or.inl h1))
      · rcases ih h2 with h3 | h4
        · exact Or.inl (List.mem_cons.mpr (Or.inr h3))
        · exact Or.inr h4

theorem nodup_mark_wanted {p : Pending} {c : ChunkPos} {d : Priority}
    (h : (pkeys p).Nodup) : (pkeys (mark_wanted p c d)).Nodup := by
  induction p with
  | nil => simp [mark_wanted, pkeys]
  | cons e rest ih =>
    obtain ⟨k, v⟩ := e
    rw [pkeys_cons, List.nodup_cons] at h
    by_cases hk : k = c
    · subst hk
      cases v with
      | some pri =>
        rw [mark_wanted_cons_self_queued, pkeys_cons, List.nodup_cons]
        exact ⟨h.1, h.2⟩
      | none =>
        rw [mark_wanted_cons_self_inflight, pkeys_cons, List.nodup_cons]
        exact ⟨h.1, h.2⟩
    · rw [mark_wanted_cons_ne hk, pkeys_cons, List.nodup_cons]
      refine ⟨fun hmem => ?_, ih h.2⟩
      rcases mem_pkeys_mark_wanted hmem with h3 | h4
      · exact h.1 h3
      · exact hk h4

/-! Lemmas about pending_remove. -/

theorem pending_remove_sublist (p : Pending) (c : ChunkPos) :
    List.Sublist (pending_remove p c) p := by
  induction p with
  | nil => simp [pending_remove]
  | cons e rest ih =>
    obtain ⟨k, v⟩ := e
    by_cases hk : k = c
    · simp only [pending_remove, if_pos hk]
      exact (List.sublist_cons_self (k, v) rest)
    · simp only [pending_remove, if_neg hk]
      exact ih.cons₂ (k, v)

theorem pfind_pending_remove_ne {p : Pending} {c x : ChunkPos} (h : x ≠ c) :
    pfind (pending_remove p c) x = pfind p x := by
  induction p with
  | nil => simp [pending_remove]
  | cons e rest ih =>
    obtain ⟨k, v⟩ := e
    by_cases hk : k = c
    · subst hk
      have hkx : k ≠ x := Ne.symm h
      simp [pending_remove, pfind, hkx]
    · simp only [pending_remove, if_neg hk, pfind]
      by_cases hx : k = x
      · simp [hx]
      · simp [hx, ih]

theorem pfind_pending_remove_self {p : Pending} {c : ChunkPos}
    (hnd : (pkeys p).Nodup) : pfind (pending_remove p c) c = none := by
  induction p with
  | nil => simp [pending_remove, pfind]
  | cons e rest ih =>
    obtain ⟨k, v⟩ := e
    rw [pkeys_cons, List.nodup_cons] at hnd
    by_cases hk : k = c
    · subst hk
      simp only [pending_remove, if_pos rfl]
      exact pfind_eq_none_iff.mpr hnd.1
    · simp [pending_remove, hk, pfind, ih hnd.2]

theorem pfind_pending_remove_none {p : Pending} {c x : ChunkPos}
    (h : pfind p x = none) : pfind (pending_remove p c) x = none := by
  rw [pfind_eq_none_iff] at h ⊢
  intro hmem
  exact h (List.map_subset (fun e => e.1) (pending_remove_sublist p c).subset hmem)

theorem nodup_pending_remove {p : Pending} {c : ChunkPos}
    (hnd : (pkeys p).Nodup) : (pkeys (pending_remove p c)).Nodup :=
  ((pending_remove_sublist p c).map (fun e => e.1)).nodup hnd

/-! Lemmas about take_dispatchable. -/

theorem pfind_take_snd (p : Pending) (x : ChunkPos) :
    pfind ((take_dispatchable p).2) x = (pfind p x).map (fun _ => (none : Option Priority)) := by
  induction p with
  | nil => simp [take_dispatchable, pfind]
  | cons e rest ih =>
    obtain ⟨k, v⟩ := e
    by_cases hk : k = x
    · simp [take_dispatchable, pfind, hk]
    · simpa [take_dispatchable, pfind, hk] using ih

theorem pfind_take_snd_of_isSome {p : Pending} {x : ChunkPos}
    (h : (pfind p x).isSome) : pfind ((take_dispatchable p).2) x = some none := by
  rw [pfind_take_snd]
  obtain ⟨v, hv⟩ := Option.isSome_iff_exists.mp h
  simp [hv]

theorem pfind_take_snd_of_none {p : Pending} {x : ChunkPos}
    (h : pfind p x = none) : pfind ((take_dispatchable p).2) x = none := by
  rw [pfind_take_snd, h]
  rfl

theorem pkeys_take_snd (p : Pending) : pkeys ((take_dispatchable p).2) = pkeys p := by
  induction p with
  | nil => rfl
  | cons e rest ih =>
    obtain ⟨k, v⟩ := e
    show k :: pkeys ((take_dispatchable rest).2) = k :: pkeys rest
    rw [ih]

theorem mem_take_fst {p : Pending} {pri : Priority} {x : ChunkPos}
    (h : (pri, x) ∈ (take_dispatchable p).1) : (x, some pri) ∈ p := by
  induction p with
  | nil => simp [take_dispatchable] at h
  | cons e rest ih =>
    obtain ⟨k, v⟩ := e
    cases v with
    | some q =>
      replace h : (pri, x) ∈ (q, k) :: (take_dispatchable rest).1 := h
      rcases List.mem_cons.mp h with h1 | h2
      · injection h1 with ha hb
        subst ha
        subst hb
        exact List.mem_cons.mpr (Or.inl rfl)
      · exact List.mem_cons.mpr (Or.inr (ih h2))
    | none =>
      replace h : (pri, x) ∈ (take_dispatchable rest).1 := h
      exact List.mem_cons.mpr (Or.inr (ih h))

theorem mem_take_coords {p : Pending} {x : ChunkPos}
    (h : x ∈ ((take_dispatchable p).1).map (fun e => e.2)) :
    ∃ pri, (x, some pri) ∈ p := by
  obtain ⟨e, he, hx⟩ := List.mem_map.mp h
  obtain ⟨pri, c⟩ := e
  exact ⟨pri, hx ▸ mem_take_fst he⟩

theorem not_mem_take_coords_of_inflight {p : Pending} {x : ChunkPos}
    (hnd : (pkeys p).Nodup) (h : pfind p x = some none) :
    x ∉ ((take_dispatchable p).1).map (fun e => e.2) := by
  intro hmem
  obtain ⟨pri, hp⟩ := mem_take_coords hmem
  rw [pfind_of_mem_nodup hnd hp] at h
  simp at h

theorem not_mem_take_coords_of_absent {p : Pending} {x : ChunkPos}
    (h : pfind p x = none) :
    x ∉ ((take_dispatchable p).1).map (fun e => e.2) := by
  intro hmem
  obtain ⟨pri, hp⟩ := mem_take_coords hmem
  have hs := pfind_isSome_of_mem hp
  rw [h] at hs
  simp at hs

theorem take_coords_sublist_pkeys (p : Pending) :
    List.Sublist (((take_dispatchable p).1).map (fun e => e.2)) (pkeys p) := by
  induction p with
  | nil => simp [take_dispatchable, pkeys]
  | cons e rest ih =>
    obtain ⟨k, v⟩ := e
    cases v with
    | some pri =>
      simpa [take_dispatchable, pkeys] using ih.cons₂ k
    | none =>
      simpa [take_dispatchable, pkeys] using ih.cons k

/-! Lemmas about the priority sort. -/

theorem insert_by_pri_perm (x : Priority × ChunkPos) (l : List (Priority × ChunkPos)) :
    List.Perm (insert_by_pri x l) (x :: l) := by
  induction l with
  | nil => exact List.Perm.refl _
  | cons y ys ih =>
    by_cases hle : x.1 ≤ y.1
    · simp only [insert_by_pri, if_pos hle]
      exact List.Perm.refl _
    · simp only [insert_by_pri, if_neg hle]
      exact (ih.cons y).trans (List.Perm.swap x y ys)

theorem sort_by_pri_perm (l : List (Priority × ChunkPos)) :
    List.Perm (sort_by_pri l) l := by
  induction l with
  | nil => exact List.Perm.refl _
  | cons x xs ih =>
    exact (insert_by_pri_perm x (sort_by_pri xs)).trans (ih.cons x)

theorem mem_sort_by_pri {x : Priority × ChunkPos} {l : List (Priority × ChunkPos)} :
    x ∈ sort_by_pri l ↔ x ∈ l :=
  (sort_by_pri_perm l).mem_iff

theorem pairwise_insert_by_pri {x : Priority × ChunkPos} {l : List (Priority × ChunkPos)}
    (h : l.Pairwise (fun a b => a.1 ≤ b.1)) :
    (insert_by_pri x l).Pairwise (fun a b => a.1 ≤ b.1) := by
  induction l with
  | nil => simp [insert_by_pri]
  | cons y ys ih =>
    rw [List.pairwise_cons] at h
    by_cases hle : x.1 ≤ y.1
    · simp only [insert_by_pri, if_pos hle]
      rw [List.pairwise_cons]
      constructor
      · intro b hb
        rcases List.mem_cons.mp hb with h1 | h2
        · rw [h1]; exact hle
        · exact le_trans hle (h.1 b h2)
      · rw [List.pairwise_cons]
        exact h
    · simp only [insert_by_pri, if_neg hle]
      rw [List.pairwise_cons]
      constructor
      · intro b hb
        have hb1 : b ∈ x :: ys := (insert_by_pri_perm x ys).mem_iff.mp hb
        rcases List.mem_cons.mp hb1 with h2 | h3
        · rw [h2]; exact le_of_not_le hle
        · exact h.1 b h3
      · exact ih h.2

theorem pairwise_sort_by_pri (l : List (Priority × ChunkPos)) :
    (sort_by_pri l).Pairwise (fun a b => a.1 ≤ b.1) := by
  induction l with
  | nil => simp [sort_by_pri]
  | cons x xs ih => exact pairwise_insert_by_pri ih

/-! Lemmas about the store. -/

/-- Keys of the store. -/
abbrev skeys (s : Store) : List ChunkPos := s.map (fun e => e.1)

theorem store_contains_iff {s : Store} {c : ChunkPos} :
    store_contains s c = true ↔ c ∈ skeys s := by
  simp [store_contains, skeys, List.any_eq_true]

theorem mem_skeys_insert_chunk {s : Store} {c x : ChunkPos} {ch : Chunk} :
    x ∈ skeys (insert_chunk s c ch) ↔ x = c ∨ x ∈ skeys s := by
  by_cases hc : store_contains s c = true
  · have hkeys : skeys (insert_chunk s c ch) = skeys s := by
      simp only [insert_chunk, if_pos hc, skeys, List.map_map]
      apply List.map_congr_left
      intro e _
      by_cases he : e.1 = c
      · simp [Function.comp, he]
      · simp [Function.comp, he]
    rw [hkeys]
    constructor
    · exact Or.inr
    · rintro (h1 | h2)
      · rw [h1]
        exact store_contains_iff.mp hc
      · exact h2
  · simp only [insert_chunk, if_neg hc, skeys, List.map_cons, List.mem_cons]

theorem mem_skeys_remove_unviewed {vs : List Viewer} {s : Store} {x : ChunkPos}
    (h : x ∈ skeys (remove_unviewed_chunks vs s)) : x ∈ skeys s := by
  simp only [skeys, List.mem_map] at h ⊢
  obtain ⟨e, he, hx⟩ := h
  exact ⟨e, (List.mem_filter.mp he).1, hx⟩

theorem contains_of_mem_skeys_remove_unviewed {vs : List Viewer} {s : Store} {x : ChunkPos}
    (h : x ∈ skeys (remove_unviewed_chunks vs s)) :
    store_contains (remove_unviewed_chunks vs s) x = true :=
  store_contains_iff.mpr h

theorem viewed_of_mem_remove_unviewed {vs : List Viewer} {s : Store}
    {e : ChunkPos × Chunk} (h : e ∈ remove_unviewed_chunks vs s) :
    is_viewed vs e.1 = true :=
  (List.mem_filter.mp h).2

/-! Lemmas about queue_pos and update_client_views. -/

theorem pfind_queue_pos_inflight {st : Store} {vp : ChunkPos} {p : Pending}
    {c x : ChunkPos} (h : pfind p c = some none) :
    pfind (queue_pos st vp p x) c = some none := by
  unfold queue_pos
  by_cases hs : store_contains st x = true
  · rw [if_pos hs]; exact h
  · rw [if_neg hs]
    by_cases hx : x = c
    · subst hx
      rw [mark_wanted_inflight h]
      exact h
    · rw [pfind_mark_wanted_ne (Ne.symm hx)]
      exact h

theorem pfind_queue_pos_of_store {st : Store} {vp : ChunkPos} {p : Pending}
    {c x : ChunkPos} (hc : store_contains st c = true) :
    pfind (queue_pos st vp p x) c = pfind p c := by
  unfold queue_pos
  by_cases hs : store_contains st x = true
  · rw [if_pos hs]
  · rw [if_neg hs]
    have hx : c ≠ x := by
      intro hh
      rw [hh] at hc
      exact hs hc
    exact pfind_mark_wanted_ne hx

theorem nodup_queue_pos {st : Store} {vp : ChunkPos} {p : Pending} {x : ChunkPos}
    (h : (pkeys p).Nodup) : (pkeys (queue_pos st vp p x)).Nodup := by
  unfold queue_pos
  by_cases hs : store_contains st x = true
  · rw [if_pos hs]; exact h
  · rw [if_neg hs]; exact nodup_mark_wanted h

theorem ucv_preserve (P : Pending → Prop) (store : Store)
    (h : ∀ vp p x, P p → P (queue_pos store vp p x)) :
    ∀ (vs : List Viewer) (p : Pending), P p → P (update_client_views vs store p) := by
  intro vs
  induction vs with
  | nil => intro p hp; exact hp
  | cons v rest ih =>
    intro p hp
    show P (List.foldl (fun q w => w.entered.foldl (queue_pos store w.pos) q) (v.entered.foldl (queue_pos store v.pos) p) rest)
    exact ih _ (foldl_preserve P (queue_pos store v.pos) (fun a x ha => h v.pos a x ha) v.entered p hp)

theorem pfind_ucv_inflight {vs : List Viewer} {store : Store} {p : Pending}
    {c : ChunkPos} (h : pfind p c = some none) :
    pfind (update_client_views vs store p) c = some none :=
  ucv_preserve (fun q => pfind q c = some none) store
    (fun _ _ _ hq => pfind_queue_pos_inflight hq) vs p h

theorem pfind_ucv_of_store {vs : List Viewer} {store : Store} {p : Pending}
    {c : ChunkPos} (hc : store_contains store c = true) :
    pfind (update_client_views vs store p) c = pfind p c :=
  ucv_preserve (fun q => pfind q c = pfind p c) store
    (fun vp q x hq => by
      show pfind (queue_pos store vp q x) c = pfind p c
      rw [pfind_queue_pos_of_store hc]
      exact hq) vs p rfl

theorem nodup_ucv {vs : List Viewer} {store : Store} {p : Pending}
    (h : (pkeys p).Nodup) : (pkeys (update_client_views vs store p)).Nodup :=
  ucv_preserve (fun q => (pkeys q).Nodup) store
    (fun _ q x hq => nodup_queue_pos hq) vs p h

/-! Lemmas about integrate. -/

theorem integrate_pending_not_mem {l : List (ChunkPos × Chunk)} {s : Store} {p : Pending}
    {x : ChunkPos} (h : x ∉ l.map (fun e => e.1)) :
    pfind (integrate l s p).pending x = pfind p x := by
  induction l generalizing s p with
  | nil => rfl
  | cons e rest ih =>
    obtain ⟨c, ch⟩ := e
    simp only [List.map_cons, List.mem_cons] at h
    push_neg at h
    show pfind (integrate rest (insert_chunk s c ch) (pending_remove p c)).pending x = pfind p x
    rw [ih h.2, pfind_pending_remove_ne h.1]

theorem integrate_pending_none {l : List (ChunkPos × Chunk)} {s : Store} {p : Pending}
    {x : ChunkPos} (h : pfind p x = none) :
    pfind (integrate l s p).pending x = none := by
  induction l generalizing s p with
  | nil => exact h
  | cons e rest ih =>
    obtain ⟨c, ch⟩ := e
    show pfind (integrate rest (insert_chunk s c ch) (pending_remove p c)).pending x = none
    exact ih (pfind_pending_remove_none h)

theorem nodup_integrate_pending {l : List (ChunkPos × Chunk)} {s : Store} {p : Pending}
    (h : (pkeys p).Nodup) : (pkeys (integrate l s p).pending).Nodup := by
  induction l generalizing s p with
  | nil => exact h
  | cons e rest ih =>
    obtain ⟨c, ch⟩ := e
    show (pkeys (integrate rest (insert_chunk s c ch) (pending_remove p c)).pending).Nodup
    exact ih (nodup_pending_remove h)

theorem integrate_pending_mem {l : List (ChunkPos × Chunk)} {s : Store} {p : Pending}
    {x : ChunkPos} (hnd : (pkeys p).Nodup) (h : x ∈ l.map (fun e => e.1)) :
    pfind (integrate l s p).pending x = none := by
  induction l generalizing s p with
  | nil => simp at h
  | cons e rest ih =>
    obtain ⟨c, ch⟩ := e
    show pfind (integrate rest (insert_chunk s c ch) (pending_remove p c)).pending x = none
    simp only [List.map_cons, List.mem_cons] at h
    by_cases hx : x = c
    · subst hx
      exact integrate_pending_none (pfind_pending_remove_self hnd)
    · rcases h with h1 | h2
      · exact absurd h1 hx
      · exact ih (nodup_pending_remove hnd) h2

theorem integrate_ok {l : List (ChunkPos × Chunk)} {s : Store} {p : Pending}
    (hl : (l.map (fun e => e.1)).Nodup)
    (h : ∀ x ∈ l.map (fun e => e.1), (pfind p x).isSome) :
    (integrate l s p).ok = true := by
  induction l generalizing s p with
  | nil => rfl
  | cons e rest ih =>
    obtain ⟨c, ch⟩ := e
    simp only [List.map_cons, List.nodup_cons] at hl
    show ((pfind p c).isSome && (integrate rest (insert_chunk s c ch) (pending_remove p c)).ok) = true
    rw [Bool.and_eq_true]
    constructor
    · exact h c (List.mem_cons.mpr (Or.inl rfl))
    · apply ih hl.2
      intro x hx
      have hxc : x ≠ c := by
        intro hh
        rw [hh] at hx
        exact hl.1 hx
      rw [pfind_pending_remove_ne hxc]
      exact h x (List.mem_cons.mpr (Or.inr hx))

theorem mem_skeys_integrate {l : List (ChunkPos × Chunk)} {s : Store} {p : Pending}
    {x : ChunkPos} :
    x ∈ skeys (integrate l s p).store ↔ x ∈ skeys s ∨ x ∈ l.map (fun e => e.1) := by
  induction l generalizing s p with
  | nil => simp [integrate]
  | cons e rest ih =>
    obtain ⟨c, ch⟩ := e
    show x ∈ skeys (integrate rest (insert_chunk s c ch) (pending_remove p c)).store ↔ _
    rw [ih]
    simp only [mem_skeys_insert_chunk, List.map_cons, List.mem_cons]
    tauto

/-! The reachability invariant of the two-thread system. -/

/-- Coordinates currently in transit in either channel. -/
def chanCoords (s : SysState) : List ChunkPos :=
  s.toWorker ++ s.toMain.map (fun e => e.1)

/-- The invariant that holds in every reachable state: the table keys are
distinct, every coordinate in transit is InFlight in the table, no
coordinate is in transit twice, and every coordinate of the World Chunk
Store is absent from the table. -/
structure Inv (s : SysState) : Prop where
  pnodup : (pkeys s.pending).Nodup
  inflight : ∀ c ∈ chanCoords s, pfind s.pending c = some none
  once : (chanCoords s).Nodup
  disj : ∀ c ∈ skeys s.store, pfind s.pending c = none

theorem mem_sent_iff {l : List (Priority × ChunkPos)} {c : ChunkPos} :
    c ∈ (sort_by_pri l).map (fun e => e.2) ↔ c ∈ l.map (fun e => e.2) :=
  ((sort_by_pri_perm l).map (fun e => e.2)).mem_iff

theorem tick_state_eq (vs : List Viewer) (s : SysState) :
    (tick vs s).state =
      ⟨(take_dispatchable (integrate s.toMain (remove_unviewed_chunks vs s.store)
          (update_client_views vs (remove_unviewed_chunks vs s.store) s.pending)).pending).2,
       (integrate s.toMain (remove_unviewed_chunks vs s.store)
          (update_client_views vs (remove_unviewed_chunks vs s.store) s.pending)).store,
       s.toWorker ++ (sort_by_pri (take_dispatchable (integrate s.toMain
          (remove_unviewed_chunks vs s.store)
          (update_client_views vs (remove_unviewed_chunks vs s.store) s.pending)).pending).1).map
            (fun e => e.2),
       []⟩ := rfl

theorem tick_sent_eq (vs : List Viewer) (s : SysState) :
    (tick vs s).sent =
      (sort_by_pri (take_dispatchable (integrate s.toMain
          (remove_unviewed_chunks vs s.store)
          (update_client_views vs (remove_unviewed_chunks vs s.store) s.pending)).pending).1).map
            (fun e => e.2) := rfl

theorem inv_tick {s : SysState} (vs : List Viewer) (hs : Inv s) :
    Inv (tick vs s).state := by
  rw [tick_state_eq]
  set store1 := remove_unviewed_chunks vs s.store with hstore1
  set p1 := update_client_views vs store1 s.pending with hp1
  set r := integrate s.toMain store1 p1 with hr
  set td := take_dispatchable r.pending with htd
  set sent := (sort_by_pri td.1).map (fun e => e.2) with hsent
  have np1 : (pkeys p1).Nodup := nodup_ucv hs.pnodup
  have np2 : (pkeys r.pending).Nodup := nodup_integrate_pending np1
  have hsplit := List.nodup_append.mp hs.once
  have hinfl1 : ∀ c ∈ chanCoords s, pfind p1 c = some none :=
    fun c hc => pfind_ucv_inflight (hs.inflight c hc)
  have hworker2 : ∀ c ∈ s.toWorker, pfind r.pending c = some none := by
    intro c hc
    have hnm : c ∉ s.toMain.map (fun e => e.1) := hsplit.2.2 hc
    rw [integrate_pending_not_mem hnm]
    exact hinfl1 c (List.mem_append.mpr (Or.inl hc))
  have hsent_mem : ∀ c ∈ sent, ∃ pri, (c, some pri) ∈ r.pending := by
    intro c hc
    exact mem_take_coords (mem_sent_iff.mp hc)
  constructor
  · show (pkeys td.2).Nodup
    rw [htd, pkeys_take_snd]
    exact np2
  · intro c hc
    simp only [chanCoords, List.append_nil, List.map_nil] at hc
    rcases List.mem_append.mp hc with h1 | h2
    · show pfind td.2 c = some none
      rw [htd]
      exact pfind_take_snd_of_isSome (by rw [hworker2 c h1]; rfl)
    · obtain ⟨pri, hp⟩ := hsent_mem c h2
      show pfind td.2 c = some none
      rw [htd]
      exact pfind_take_snd_of_isSome (pfind_isSome_of_mem hp)
  · show ((s.toWorker ++ sent) ++ List.map (fun e => e.1) ([] : List (ChunkPos × Chunk))).Nodup
    rw [List.map_nil, List.append_nil, List.nodup_append]
    refine ⟨hsplit.1, ?_, ?_⟩
    · have hperm := (sort_by_pri_perm td.1).map (fun e => e.2)
      rw [hperm.nodup_iff]
      exact (take_coords_sublist_pkeys r.pending).nodup np2
    · intro c hc hcs
      obtain ⟨pri, hp⟩ := hsent_mem c hcs
      have := pfind_of_mem_nodup np2 hp
      rw [hworker2 c hc] at this
      simp at this
  · intro c hc
    show pfind td.2 c = none
    simp only [skeys] at hc
    rcases mem_skeys_integrate.mp hc with h1 | h2
    · have hcs : store_contains store1 c = true := store_contains_iff.mpr h1
      have h0 : pfind s.pending c = none := hs.disj c (mem_skeys_remove_unviewed h1)
      have h1p : pfind p1 c = none := by
        rw [hp1, pfind_ucv_of_store hcs]
        exact h0
      rw [htd]
      exact pfind_take_snd_of_none (integrate_pending_none h1p)
    · rw [htd]
      exact pfind_take_snd_of_none (integrate_pending_mem np1 h2)

theorem inv_worker {s : SysState} (res : Except String (Option Chunk)) (hs : Inv s) :
    Inv (stepFn s (.worker res)) := by
  cases htw : s.toWorker with
  | nil =>
    have hstep : stepFn s (.worker res) = s := by
      unfold stepFn
      rw [htw]
    rw [hstep]
    exact hs
  | cons c rest =>
    have hchan : chanCoords s = c :: (rest ++ s.toMain.map (fun e => e.1)) := by
      simp [chanCoords, htw]
    cases res with
    | ok o =>
      cases o with
      | some ch =>
        have hstep : stepFn s (.worker (.ok (some ch)))
            = ⟨s.pending, s.store, rest, s.toMain ++ [(c, ch)]⟩ := by
          unfold stepFn
          rw [htw]
          rfl
        rw [hstep]
        have hperm : List.Perm (rest ++ (s.toMain ++ [(c, ch)]).map (fun e => e.1))
            (chanCoords s) := by
          rw [hchan]
          have hl : rest ++ (s.toMain ++ [(c, ch)]).map (fun e => e.1)
              = (rest ++ s.toMain.map (fun e => e.1)) ++ [c] := by
            simp [List.map_append, List.append_assoc]
          rw [hl]
          exact List.perm_append_singleton c _
        constructor
        · exact hs.pnodup
        · intro x hx
          exact hs.inflight x (hperm.mem_iff.mp hx)
        · exact hperm.nodup_iff.mpr hs.once
        · exact hs.disj
      | none =>
        have hstep : stepFn s (.worker (.ok none))
            = ⟨s.pending, s.store, rest, s.toMain⟩ := by
          unfold stepFn
          rw [htw]
          rfl
        rw [hstep]
        have hsub : List.Sublist (rest ++ s.toMain.map (fun e => e.1)) (chanCoords s) := by
          rw [hchan]
          exact List.sublist_cons_self c _
        constructor
        · exact hs.pnodup
        · intro x hx
          exact hs.inflight x (hsub.subset hx)
        · exact hsub.nodup hs.once
        · exact hs.disj
    | error e =>
      have hstep : stepFn s (.worker (.error e))
          = ⟨s.pending, s.store, rest, s.toMain⟩ := by
        unfold stepFn
        rw [htw]
        rfl
      rw [hstep]
      have hsub : List.Sublist (rest ++ s.toMain.map (fun e => e.1)) (chanCoords s) := by
        rw [hchan]
        exact List.sublist_cons_self c _
      constructor
      · exact hs.pnodup
      · intro x hx
        exact hs.inflight x (hsub.subset hx)
      · exact hsub.nodup hs.once
      · exact hs.disj

theorem inv_step {s : SysState} (hs : Inv s) (st : Step) : Inv (stepFn s st) := by
  cases st with
  | tick vs => exact inv_tick vs hs
  | worker res => exact inv_worker res hs

theorem inv_init : Inv init := by
  constructor
  · simp [init, pkeys]
  · intro c hc
    simp [init, chanCoords] at hc
  · simp [init, chanCoords]
  · intro c hc
    simp [init, skeys] at hc

theorem inv_runFrom {s : SysState} (hs : Inv s) (steps : List Step) :
    Inv (runFrom s steps) :=
  foldl_preserve Inv stepFn (fun a st ha => inv_step ha st) steps s hs

theorem inv_run (steps : List Step) : Inv (run steps) :=
  foldl_preserve Inv stepFn (fun a st ha => inv_step ha st) steps init inv_init

/-! Helpers for the per-claim theorems. -/

/-- Positions sent on the main-to-worker channel during one step: a tick
sends its sorted dispatch list (line 176-178), a worker step sends
nothing on that channel. -/
def stepSends (s : SysState) : Step → List ChunkPos
  | .tick vs => (tick vs s).sent
  | .worker _ => []

/-- All positions sent on the main-to-worker channel during a run. -/
def sendsDuring (s : SysState) : List Step → List ChunkPos
  | [] => []
  | st :: rest => stepSends s st ++ sendsDuring (stepFn s st) rest

/-- Decidable check that a coordinate's table entry is InFlight at the
start of every step of a run. -/
def inFlightThroughout (c : ChunkPos) : SysState → List Step → Bool
  | _, [] => true
  | s, st :: rest =>
      decide (pfind s.pending c = some none) && inFlightThroughout c (stepFn s st) rest

theorem stepFn_worker_cases (s : SysState) (res : Except String (Option Chunk)) :
    stepFn s (.worker res) = s ∨
      ∃ k rest, s.toWorker = k :: rest ∧
        (stepFn s (.worker res) = ⟨s.pending, s.store, rest, s.toMain⟩ ∨
          ∃ ch, stepFn s (.worker res) = ⟨s.pending, s.store, rest, s.toMain ++ [(k, ch)]⟩) := by
  cases hw : s.toWorker with
  | nil =>
    left
    unfold stepFn
    rw [hw]
  | cons k rest =>
    right
    refine ⟨k, rest, rfl, ?_⟩
    cases res with
    | ok o =>
      cases o with
      | some ch =>
        right
        refine ⟨ch, ?_⟩
        unfold stepFn
        rw [hw]
        rfl
      | none =>
        left
        unfold stepFn
        rw [hw]
        rfl
    | error e =>
      left
      unfold stepFn
      rw [hw]
      rfl

theorem worker_pending (s : SysState) (res : Except String (Option Chunk)) :
    (stepFn s (.worker res)).pending = s.pending := by
  rcases stepFn_worker_cases s res with h | ⟨k, rest, hw, h | ⟨ch, h⟩⟩ <;> simp [h]

theorem nodup_step {s : SysState} (h : (pkeys s.pending).Nodup) (st : Step) :
    (pkeys (stepFn s st).pending).Nodup := by
  cases st with
  | tick vs =>
    show (pkeys (tick vs s).state.pending).Nodup
    rw [tick_state_eq]
    rw [pkeys_take_snd]
    exact nodup_integrate_pending (nodup_ucv h)
  | worker res =>
    rw [worker_pending]
    exact h

/-- An InFlight coordinate is never dispatched by a tick, and its table
entry either stays InFlight or is removed by integration. -/
theorem inflight_step {s : SysState} {vs : List Viewer} {c : ChunkPos}
    (hnd : (pkeys s.pending).Nodup) (hin : pfind s.pending c = some none) :
    c ∉ (tick vs s).sent ∧
      (pfind (tick vs s).state.pending c = some none ∨
        pfind (tick vs s).state.pending c = none) := by
  rw [tick_sent_eq, tick_state_eq]
  set store1 := remove_unviewed_chunks vs s.store with hstore1
  set p1 := update_client_views vs store1 s.pending with hp1
  set r := integrate s.toMain store1 p1 with hr
  have np1 : (pkeys p1).Nodup := nodup_ucv hnd
  have h1 : pfind p1 c = some none := pfind_ucv_inflight hin
  by_cases hm : c ∈ s.toMain.map (fun e => e.1)
  · have h2 : pfind r.pending c = none := integrate_pending_mem np1 hm
    refine ⟨fun hc => not_mem_take_coords_of_absent h2 (mem_sent_iff.mp hc), Or.inr ?_⟩
    exact pfind_take_snd_of_none h2
  · have h2 : pfind r.pending c = some none := by
      rw [hr, integrate_pending_not_mem hm]
      exact h1
    have np2 : (pkeys r.pending).Nodup := nodup_integrate_pending np1
    refine ⟨fun hc => not_mem_take_coords_of_inflight np2 h2 (mem_sent_iff.mp hc), Or.inl ?_⟩
    exact pfind_take_snd_of_isSome (by rw [h2]; rfl)

/-- A coordinate is stranded when it is InFlight in the table but present
in neither channel: this is the state left behind by a failed load. -/
def Stranded (c : ChunkPos) (s : SysState) : Prop :=
  pfind s.pending c = some none ∧ (pkeys s.pending).Nodup ∧
    c ∉ s.toWorker ∧ c ∉ s.toMain.map (fun e => e.1)

theorem stranded_step {c : ChunkPos} {s : SysState} (h : Stranded c s) (st : Step) :
    Stranded c (stepFn s st) := by
  obtain ⟨hin, hnd, htw, htm⟩ := h
  cases st with
  | tick vs =>
    show Stranded c (tick vs s).state
    have hnd2 : (pkeys (tick vs s).state.pending).Nodup := nodup_step hnd (Step.tick vs)
    rw [tick_state_eq] at hnd2 ⊢
    set store1 := remove_unviewed_chunks vs s.store with hstore1
    set p1 := update_client_views vs store1 s.pending with hp1
    set r := integrate s.toMain store1 p1 with hr
    have np1 : (pkeys p1).Nodup := nodup_ucv hnd
    have h1 : pfind p1 c = some none := pfind_ucv_inflight hin
    have h2 : pfind r.pending c = some none := by
      rw [hr, integrate_pending_not_mem htm]
      exact h1
    have np2 : (pkeys r.pending).Nodup := nodup_integrate_pending np1
    refine ⟨?_, hnd2, ?_, ?_⟩
    · exact pfind_take_snd_of_isSome (by rw [h2]; rfl)
    · intro hc
      rcases List.mem_append.mp hc with h3 | h4
      · exact htw h3
      · exact not_mem_take_coords_of_inflight np2 h2 (mem_sent_iff.mp h4)
    · simp
  | worker res =>
    cases hw : s.toWorker with
    | nil =>
      have hstep : stepFn s (.worker res) = s := by
        unfold stepFn
        rw [hw]
      rw [hstep]
      exact ⟨hin, hnd, htw, htm⟩
    | cons k rest =>
      have hkc : c ≠ k := by
        intro hh
        rw [hw] at htw
        exact htw (hh ▸ List.mem_cons.mpr (Or.inl rfl))
      have hcrest : c ∉ rest := by
        intro hh
        rw [hw] at htw
        exact htw (List.mem_cons.mpr (Or.inr hh))
      cases res with
      | ok o =>
        cases o with
        | some ch =>
          have hstep : stepFn s (.worker (.ok (some ch)))
              = ⟨s.pending, s.store, rest, s.toMain ++ [(k, ch)]⟩ := by
            unfold stepFn
            rw [hw]
            rfl
          rw [hstep]
          refine ⟨hin, hnd, hcrest, ?_⟩
          rw [List.map_append]
          intro hc
          rcases List.mem_append.mp hc with h3 | h4
          · exact htm h3
          · simp at h4
            exact hkc h4
        | none =>
          have hstep : stepFn s (.worker (.ok none))
              = ⟨s.pending, s.store, rest, s.toMain⟩ := by
            unfold stepFn
            rw [hw]
            rfl
          rw [hstep]
          exact ⟨hin, hnd, hcrest, htm⟩
      | error e =>
        have hstep : stepFn s (.worker (.error e))
            = ⟨s.pending, s.store, rest, s.toMain⟩ := by
          unfold stepFn
          rw [hw]
          rfl
        rw [hstep]
        exact ⟨hin, hnd, hcrest, htm⟩

theorem stranded_runFrom {c : ChunkPos} {s : SysState} (h : Stranded c s)
    (more : List Step) : Stranded c (runFrom s more) :=
  foldl_preserve (Stranded c) stepFn (fun a st ha => stranded_step ha st) more s h

/-- The phases of one simulation tick in their execution order, as fixed
by the system schedule of main (lines 47-49: remove_unviewed_chunks runs
first among these, update_client_views after it, send_recv_chunks last)
and by the body of send_recv_chunks (the integration loop, lines 157-161,
runs before the dispatch loop, lines 163-178). -/
inductive TickPhase where
  | evict
  | wantCompute
  | integration
  | dispatch
deriving DecidableEq, Repr

/-- The execution order of the four phases within one tick. -/
def tickPhaseOrder : List TickPhase :=
  [TickPhase.evict, TickPhase.wantCompute, TickPhase.integration, TickPhase.dispatch]

/-- Position of a phase within the tick. -/
def phaseIdx (ph : TickPhase) : Nat :=
  tickPhaseOrder.findIdx (fun q => decide (q = ph))

/-- A viewer sitting at the origin that sees and just entered chunk
position (5, 5). -/
def viewerA : Viewer := ⟨(0, 0), [(5, 5)], [(5, 5)]⟩

/-- A viewer sitting at the origin whose view holds only (0, 0) and who
entered nothing this tick. -/
def viewerB : Viewer := ⟨(0, 0), [(0, 0)], []⟩

/-- A run in which viewerA requests chunk (5, 5), the worker loads it,
and the next tick (with viewerA gone) integrates it. -/
def c2_trace : List Step :=
  [Step.tick [viewerA], Step.worker (.ok (some (Chunk.new SECTION_COUNT))),
   Step.tick [viewerB]]

/-- A state in which chunk (5, 5) is InFlight and its load result is
already waiting in the worker-to-main channel. -/
def s1 : SysState :=
  ⟨[((((5 : Int), (5 : Int))), none)], [],
   [], [((((5 : Int), (5 : Int))), Chunk.new SECTION_COUNT)]⟩

/-- A viewer at the origin that sees and just entered (0, 0). -/
def viewerC : Viewer := ⟨(0, 0), [(0, 0)], [(0, 0)]⟩

/-- A state in which chunk (0, 0) is InFlight and the channels are empty. -/
def s5 : SysState := ⟨[((((0 : Int), (0 : Int))), none)], [], [], []⟩

/-- A run after which the load result for (5, 5) waits in the
worker-to-main channel. -/
def t8 : List Step :=
  [Step.tick [viewerA], Step.worker (.ok (some (Chunk.new SECTION_COUNT)))]

/-! The claims. -/

/-- C1 (counterexample): the claim asserts that within every tick the
integration step executes before the want-computation step and before the
dispatch step.  In the schedule fixed by main (lines 47-49) the
want-computation system update_client_views runs before send_recv_chunks,
which performs integration, so integration does not precede
want-computation. -/
theorem c1_counterexample :
    ¬ (phaseIdx TickPhase.integration < phaseIdx TickPhase.wantCompute ∧
        phaseIdx TickPhase.integration < phaseIdx TickPhase.dispatch) := by
  decide

/-- C1 (amended): within every tick want-computation precedes integration
and integration precedes dispatch; nevertheless a chunk whose load result
is drained in a tick is not sent to the worker in that tick and its
Pending Request Table entry is gone at the end of the tick, because the
entry is InFlight during want-computation (left untouched) and is removed
by integration before the dispatch phase reads the table. -/
theorem c1_amended :
    (phaseIdx TickPhase.wantCompute < phaseIdx TickPhase.integration ∧
      phaseIdx TickPhase.integration < phaseIdx TickPhase.dispatch) ∧
    ∀ (s : SysState) (vs : List Viewer) (c : ChunkPos) (ch : Chunk),
      (pkeys s.pending).Nodup → (c, ch) ∈ s.toMain →
      c ∉ (tick vs s).sent ∧ pfind (tick vs s).state.pending c = none := by
  refine ⟨by decide, ?_⟩
  intro s vs c ch hnd hm
  have hmc : c ∈ s.toMain.map (fun e => e.1) := List.mem_map.mpr ⟨(c, ch), hm, rfl⟩
  have h2 : pfind (integrate s.toMain (remove_unviewed_chunks vs s.store)
      (update_client_views vs (remove_unviewed_chunks vs s.store) s.pending)).pending c
        = none :=
    integrate_pending_mem (nodup_ucv hnd) hmc
  constructor
  · rw [tick_sent_eq]
    exact fun hc => not_mem_take_coords_of_absent h2 (mem_sent_iff.mp hc)
  · rw [tick_state_eq]
    exact pfind_take_snd_of_none h2

/-- C1 (witness for the amended theorem): in state s1 the load result for
(5, 5) is drained and (5, 5) is neither dispatched nor left pending. -/
theorem c1_amended_witness :
    ((5 : Int), (5 : Int)) ∉ (tick [viewerB] s1).sent ∧
      pfind (tick [viewerB] s1).state.pending ((5 : Int), (5 : Int)) = none :=
  c1_amended.2 s1 [viewerB] ((5 : Int), (5 : Int)) (Chunk.new SECTION_COUNT)
    (by decide) (by decide)

/-- C2 (counterexample): at the end of the final tick of c2_trace the
coordinate (5, 5) is still in the World Chunk Store although it is absent
from every current viewer's view: the eviction pass ran at the start of
the tick, before the load result for (5, 5) was integrated. -/
theorem c2_counterexample :
    ((5 : Int), (5 : Int)) ∈ skeys (run c2_trace).store ∧
      is_viewed [viewerB] ((5 : Int), (5 : Int)) = false := by
  decide

/-- C2 (amended): the eviction pass removes every World Chunk Store entry
whose coordinate no current viewer references, so immediately after
remove_unviewed_chunks every remaining entry is viewed; a chunk
integrated later in the same tick may stay in the store unviewed until
the next tick's eviction pass. -/
theorem c2_amended (vs : List Viewer) (s : Store) :
    ∀ e ∈ remove_unviewed_chunks vs s, is_viewed vs e.1 = true :=
  fun _ he => viewed_of_mem_remove_unviewed he

/-- C2 (witness for the amended theorem): the entry at (0, 0) surviving
an eviction pass under viewerB is viewed by viewerB. -/
theorem c2_amended_witness :
    is_viewed [viewerB] ((0 : Int), (0 : Int)) = true :=
  c2_amended [viewerB] [(((0 : Int), (0 : Int)), Chunk.new SECTION_COUNT)]
    (((0 : Int), (0 : Int)), Chunk.new SECTION_COUNT) (by decide)

/-- C3 (counterexample): after the run in which viewerA requested (5, 5)
and then left, the coordinate (5, 5) is still in the Pending Request
Table although it is in no current viewer's view and not in the World
Chunk Store, so a table entry is not equivalent to being wanted by some
viewer and absent from the store. -/
theorem c3_counterexample :
    ((5 : Int), (5 : Int)) ∈ pkeys (run [Step.tick [viewerA], Step.tick [viewerB]]).pending ∧
      is_viewed [viewerB] ((5 : Int), (5 : Int)) = false ∧
      ((5 : Int), (5 : Int)) ∉ skeys (run [Step.tick [viewerA], Step.tick [viewerB]]).store := by
  decide

/-- C3 (amended): the disjointness half of the claimed invariant holds in
every reachable state: a coordinate present in the World Chunk Store is
absent from the Pending Request Table.  The wanted-iff half fails because
a table entry lingers after every viewer that wanted it has departed. -/
theorem c3_amended (steps : List Step) (c : ChunkPos)
    (h : c ∈ skeys (run steps).store) : pfind (run steps).pending c = none :=
  (inv_run steps).disj c h

/-- C3 (witness for the amended theorem): after c2_trace the coordinate
(5, 5) is in the store and absent from the table. -/
theorem c3_amended_witness :
    pfind (run c2_trace).pending ((5 : Int), (5 : Int)) = none :=
  c3_amended c2_trace ((5 : Int), (5 : Int)) (by decide)

/-- C4: starting from a table where the coordinate is absent, a sequence
of mark_wanted calls stores exactly the minimum of all supplied
priorities (the first call inserts, later calls keep the running
minimum), and a mark_wanted call on an InFlight coordinate leaves the
table unchanged. -/
theorem c4_mark_wanted_min (p : Pending) (c : ChunkPos) (p0 : Priority)
    (ps : List Priority) (h : pfind p c = none) :
    pfind (ps.foldl (fun q d => mark_wanted q c d) (mark_wanted p c p0)) c
        = some (some (ps.foldl min p0)) ∧
      ∀ (q : Pending) (d : Priority), pfind q c = some none → mark_wanted q c d = q := by
  have key : ∀ (qs : List Priority) (q : Pending) (a : Priority),
      pfind q c = some (some a) →
      pfind (qs.foldl (fun q d => mark_wanted q c d) q) c = some (some (qs.foldl min a)) := by
    intro qs
    induction qs with
    | nil => intro q a hq; exact hq
    | cons d rest ih =>
      intro q a hq
      exact ih (mark_wanted q c d) (min a d) (pfind_mark_wanted_queued hq)
  exact ⟨key ps (mark_wanted p c p0) p0 (pfind_mark_wanted_vacant h),
    fun q d hq => mark_wanted_inflight hq⟩

/-- C4 (witness): priorities 50, 10, 30 supplied for an initially absent
coordinate leave the minimum 10 stored. -/
theorem c4_witness :
    pfind (([10, 30] : List Priority).foldl
        (fun q d => mark_wanted q ((0 : Int), (0 : Int)) d)
        (mark_wanted [] ((0 : Int), (0 : Int)) 50)) ((0 : Int), (0 : Int))
      = some (some 10) :=
  (c4_mark_wanted_min [] ((0 : Int), (0 : Int)) 50 [10, 30] (by decide)).1

theorem not_sent_while_inflight (c : ChunkPos) :
    ∀ (steps : List Step) (s : SysState), (pkeys s.pending).Nodup →
      inFlightThroughout c s steps = true → c ∉ sendsDuring s steps := by
  intro steps
  induction steps with
  | nil =>
    intro s _ _
    simp [sendsDuring]
  | cons st rest ih =>
    intro s hnd hthr
    simp only [inFlightThroughout, Bool.and_eq_true, decide_eq_true_eq] at hthr
    obtain ⟨hin1, hrest⟩ := hthr
    simp only [sendsDuring]
    intro hc
    rcases List.mem_append.mp hc with h1 | h2
    · cases st with
      | tick vs => exact (inflight_step hnd hin1).1 h1
      | worker res => simp [stepSends] at h1
    · exact ih (stepFn s st) (nodup_step hnd st) hrest h2

/-- C5: take_dispatchable excludes a coordinate whose entry is InFlight,
and over any run during which the entry stays InFlight the coordinate is
never sent to the worker again, no matter how many mark_wanted calls the
ticks perform. -/
theorem c5_no_duplicate_dispatch (c : ChunkPos) (s : SysState) (steps : List Step)
    (hnd : (pkeys s.pending).Nodup)
    (hin : pfind s.pending c = some none)
    (hthr : inFlightThroughout c s steps = true) :
    c ∉ ((take_dispatchable s.pending).1).map (fun e => e.2) ∧
      c ∉ sendsDuring s steps :=
  ⟨not_mem_take_coords_of_inflight hnd hin,
   not_sent_while_inflight c steps s hnd hthr⟩

/-- C5 (witness): the InFlight coordinate (0, 0) of state s5 is not
dispatched by take_dispatchable and not sent during a tick in which
viewerC enters (0, 0) again. -/
theorem c5_witness :
    ((0 : Int), (0 : Int)) ∉ ((take_dispatchable s5.pending).1).map (fun e => e.2) ∧
      ((0 : Int), (0 : Int)) ∉ sendsDuring s5 [Step.tick [viewerC]] :=
  c5_no_duplicate_dispatch ((0 : Int), (0 : Int)) s5 [Step.tick [viewerC]]
    (by decide) (by decide) (by decide)

/-- The Pending Request Table with Queued priorities 50, 10, 30 from the
priority-ordering example of the spec. -/
def pendingExample : Pending :=
  [((((0 : Int), (0 : Int))), some 50), ((((1 : Int), (0 : Int))), some 10),
   ((((2 : Int), (0 : Int))), some 30)]

/-- C6: the list sent by a tick is the take_dispatchable output sorted by
ascending priority: the sorted list is always pairwise nondecreasing in
its priority component, send_recv_chunks sends exactly its positions in
that order, and for pending priorities 50, 10, 30 the dispatch order of
priorities is 10, 30, 50. -/
theorem c6_priority_order :
    (∀ p : Pending,
      ((sort_by_pri (take_dispatchable p).1)).Pairwise (fun a b => a.1 ≤ b.1)) ∧
    (∀ s : SysState, (send_recv_chunks s).sent
        = (sort_by_pri (take_dispatchable
            (integrate s.toMain s.store s.pending).pending).1).map (fun e => e.2)) ∧
    ((sort_by_pri (take_dispatchable pendingExample).1).map (fun e => e.1)
        = [10, 30, 50]) := by
  refine ⟨fun p => pairwise_sort_by_pri _, fun s => rfl, by decide⟩

/-- C7: when the load result for a coordinate is waiting in the
worker-to-main channel (the coordinate being InFlight) and the
coordinate enters a viewer's view while absent from the store, the tick
does not re-request it: its entry is still InFlight (not Queued) after
update_client_views, it is not sent to the worker, and integration has
removed it from the table by the end of the tick. -/
theorem c7_completed_not_rerequested (s : SysState) (vs : List Viewer) (v : Viewer)
    (c : ChunkPos) (ch : Chunk)
    (hnd : (pkeys s.pending).Nodup)
    (hm : (c, ch) ∈ s.toMain)
    (hin : pfind s.pending c = some none)
    (hv : v ∈ vs) (hent : c ∈ v.entered)
    (hst : store_contains s.store c = false) :
    pfind (update_client_views vs (remove_unviewed_chunks vs s.store) s.pending) c
        = some none ∧
      c ∉ (tick vs s).sent ∧
      pfind (tick vs s).state.pending c = none := by
  have h1 : pfind (update_client_views vs (remove_unviewed_chunks vs s.store) s.pending) c
      = some none := pfind_ucv_inflight hin
  have hmc : c ∈ s.toMain.map (fun e => e.1) := List.mem_map.mpr ⟨(c, ch), hm, rfl⟩
  have h2 : pfind (integrate s.toMain (remove_unviewed_chunks vs s.store)
      (update_client_views vs (remove_unviewed_chunks vs s.store) s.pending)).pending c
        = none :=
    integrate_pending_mem (nodup_ucv hnd) hmc
  refine ⟨h1, ?_, ?_⟩
  · rw [tick_sent_eq]
    exact fun hc => not_mem_take_coords_of_absent h2 (mem_sent_iff.mp hc)
  · rw [tick_state_eq]
    exact pfind_take_snd_of_none h2

/-- C7 (witness): in state s1, with viewerA entering (5, 5) while the
result for (5, 5) waits in the channel, the coordinate is not
re-requested. -/
theorem c7_witness :
    pfind (update_client_views [viewerA] (remove_unviewed_chunks [viewerA] s1.store)
        s1.pending) ((5 : Int), (5 : Int)) = some none ∧
      ((5 : Int), (5 : Int)) ∉ (tick [viewerA] s1).sent ∧
      pfind (tick [viewerA] s1).state.pending ((5 : Int), (5 : Int)) = none :=
  c7_completed_not_rerequested s1 [viewerA] viewerA ((5 : Int), (5 : Int))
    (Chunk.new SECTION_COUNT) (by decide) (by decide) (by decide)
    (by decide) (by decide) (by decide)

theorem tick_ok_eq (vs : List Viewer) (s : SysState) :
    (tick vs s).ok = (integrate s.toMain (remove_unviewed_chunks vs s.store)
      (update_client_views vs (remove_unviewed_chunks vs s.store) s.pending)).ok := rfl

/-- C8: in every reachable state, every load result waiting in the
worker-to-main channel belongs to a coordinate that is InFlight in the
Pending Request Table, and integrating a tick from such a state passes
every assert!(state.pending.remove(&pos).is_some()). -/
theorem c8_assert_succeeds (steps : List Step) (vs : List Viewer) :
    (∀ e ∈ (run steps).toMain, pfind (run steps).pending e.1 = some none) ∧
      (tick vs (run steps)).ok = true := by
  have hinv := inv_run steps
  refine ⟨?_, ?_⟩
  · intro e he
    exact hinv.inflight e.1
      (List.mem_append.mpr (Or.inr (List.mem_map.mpr ⟨e, he, rfl⟩)))
  · rw [tick_ok_eq]
    apply integrate_ok
    · exact (List.nodup_append.mp hinv.once).2.1
    · intro x hx
      have hx2 : pfind (run steps).pending x = some none :=
        hinv.inflight x (List.mem_append.mpr (Or.inr hx))
      rw [pfind_ucv_inflight hx2]
      rfl

/-- C8 (witness): after t8 the result for (5, 5) waits in the channel,
its coordinate is InFlight, and the integrating tick's asserts pass. -/
theorem c8_witness :
    pfind (run t8).pending ((5 : Int), (5 : Int)) = some none ∧
      (tick [viewerB] (run t8)).ok = true :=
  ⟨(c8_assert_succeeds t8 [viewerB]).1 (((5 : Int), (5 : Int)), Chunk.new SECTION_COUNT)
      (by decide),
   (c8_assert_succeeds t8 [viewerB]).2⟩

theorem stall_after_drop (steps : List Step) (c : ChunkPos) (rest : List ChunkPos)
    (res : Except String (Option Chunk))
    (hres : (anvil_worker_step c res).1 = none)
    (htw : (run steps).toWorker = c :: rest) :
    ∀ more : List Step,
      pfind (runFrom (stepFn (run steps) (.worker res)) more).pending c = some none := by
  have hinv := inv_run steps
  have hcw : c ∈ (run steps).toWorker := by
    rw [htw]
    exact List.mem_cons.mpr (Or.inl rfl)
  have hin : pfind (run steps).pending c = some none :=
    hinv.inflight c (List.mem_append.mpr (Or.inl hcw))
  have hstep : stepFn (run steps) (.worker res)
      = ⟨(run steps).pending, (run steps).store, rest, (run steps).toMain⟩ := by
    cases res with
    | ok o =>
      cases o with
      | some ch => simp [anvil_worker_step] at hres
      | none =>
        unfold stepFn
        rw [htw]
        rfl
    | error e =>
      unfold stepFn
      rw [htw]
      rfl
  have hnodup := hinv.once
  have hchan : (chanCoords (run steps)).Nodup := hnodup
  rw [chanCoords, htw, List.cons_append] at hchan
  have hhead := (List.nodup_cons.mp hchan).1
  have hstr : Stranded c (stepFn (run steps) (.worker res)) := by
    rw [hstep]
    refine ⟨hin, hinv.pnodup, ?_, ?_⟩
    · intro hc
      exact hhead (List.mem_append.mpr (Or.inl hc))
    · intro hc
      exact hhead (List.mem_append.mpr (Or.inr hc))
  exact fun more => (stranded_runFrom hstr more).1

/-- C9: on a storage read or decode error the worker logs a warning and
sends nothing on the worker-to-main channel (lines 186-194), and the
coordinate, never removed from the Pending Request Table nor re-queued,
remains InFlight in every subsequent state. -/
theorem c9_error_permanent_stall (steps : List Step) (c : ChunkPos)
    (rest : List ChunkPos) (e : String)
    (htw : (run steps).toWorker = c :: rest) :
    (anvil_worker_step c (.error e)).1 = none ∧
      (anvil_worker_step c (.error e)).2 = ["Failed to get chunk"] ∧
      ∀ more : List Step,
        pfind (runFrom (stepFn (run steps) (.worker (.error e))) more).pending c
          = some none :=
  ⟨rfl, rfl, stall_after_drop steps c rest (.error e) rfl htw⟩

/-- C9 (witness): after the tick that dispatches (5, 5), an error on its
load leaves (5, 5) InFlight through a further tick. -/
theorem c9_witness :
    (anvil_worker_step ((5 : Int), (5 : Int)) (.error "io")).1 = none ∧
      pfind (runFrom (stepFn (run [Step.tick [viewerA]]) (.worker (.error "io")))
        [Step.tick [viewerB]]).pending ((5 : Int), (5 : Int)) = some none :=
  ⟨(c9_error_permanent_stall [Step.tick [viewerA]] ((5 : Int), (5 : Int)) [] "io"
      (by decide)).1,
   (c9_error_permanent_stall [Step.tick [viewerA]] ((5 : Int), (5 : Int)) [] "io"
      (by decide)).2.2 [Step.tick [viewerB]]⟩

/-- C10 (implicit): when the storage read succeeds but no chunk exists at
the coordinate, get_chunk returns Ok(None) (lines 199-201), the worker
then sends nothing and logs nothing at all (lines 188-192), and the
coordinate remains InFlight in the Pending Request Table in every
subsequent state: the same permanent stall as an error, but silent. -/
theorem c10_missing_chunk_silent_stall {Data : Type}
    (conv : Data → Chunk → Except String Chunk)
    (steps : List Step) (c : ChunkPos) (rest : List ChunkPos)
    (htw : (run steps).toWorker = c :: rest) :
    get_chunk (Except.ok (none : Option Data)) conv = Except.ok none ∧
      (anvil_worker_step c (.ok none)).1 = none ∧
      (anvil_worker_step c (.ok none)).2 = [] ∧
      ∀ more : List Step,
        pfind (runFrom (stepFn (run steps) (.worker (.ok none))) more).pending c
          = some none :=
  ⟨rfl, rfl, rfl, stall_after_drop steps c rest (.ok none) rfl htw⟩

/-- C10 (witness): after the tick that dispatches (5, 5), a missing
chunk leaves (5, 5) InFlight through a further tick, with no message and
no log. -/
theorem c10_witness :
    get_chunk (Except.ok (none : Option Unit))
        (fun (_ : Unit) (ch : Chunk) => Except.ok ch) = Except.ok none ∧
      (anvil_worker_step ((5 : Int), (5 : Int)) (.ok none)).2 = [] ∧
      pfind (runFrom (stepFn (run [Step.tick [viewerA]]) (.worker (.ok none)))
        [Step.tick [viewerB]]).pending ((5 : Int), (5 : Int)) = some none :=
  ⟨(c10_missing_chunk_silent_stall (fun (_ : Unit) (ch : Chunk) => Except.ok ch)
      [Step.tick [viewerA]] ((5 : Int), (5 : Int)) [] (by decide)).1,
   (c10_missing_chunk_silent_stall (fun (_ : Unit) (ch : Chunk) => Except.ok ch)
      [Step.tick [viewerA]] ((5 : Int), (5 : Int)) [] (by decide)).2.2.1,
   (c10_missing_chunk_silent_stall (fun (_ : Unit) (ch : Chunk) => Except.ok ch)
      [Step.tick [viewerA]] ((5 : Int), (5 : Int)) [] (by decide)).2.2.2
      [Step.tick [viewerB]]⟩

end AnvilLoading
